import Mathlib

/-!
# Verification of the anydraw synchronization and geometry engine

Shallow embedding of the collaborative drawing program:
* the client-side shape store (`apps/excelidraw-frontend/draw/Game.ts`),
* the tool geometry engine (`resize.ts`, `select.ts`, `pencil.ts`),
* the websocket relay (`apps/ws-backend/src/index.ts`).

Numbers are embedded as rationals (`ℚ`): the source computes with JS
doubles, and every comparison the verified claims depend on is either
exact rational arithmetic in the source or a square-root comparison that
we translate to its exact square-free equivalent (noted at each site).
-/

namespace AnyDraw

/-! ## Data model (`Game.ts`)

`Shape` is the tagged union from `draw/Game.ts`.  Optional stroke fields
are carried verbatim as `Option` values. -/

inductive TextAlignKind
  | left
  | center
  | right
deriving DecidableEq

inductive VerticalAlignKind
  | top
  | middle
  | bottom
deriving DecidableEq

structure TextBox where
  x : ℚ
  y : ℚ
  width : ℚ
  height : ℚ
  text : String
  fontSize : ℚ
  fontFamily : String
  lineHeight : ℚ
  textAlign : TextAlignKind
  verticalAlign : VerticalAlignKind
  strokeWidth : Option ℚ
  strokeColor : Option String
deriving DecidableEq

inductive Shape
  | rect (x y width height : ℚ) (strokeWidth : Option ℚ) (strokeColor : Option String)
  | circle (centerX centerY radius : ℚ) (strokeWidth : Option ℚ) (strokeColor : Option String)
  | pencil (path : List (ℚ × ℚ)) (strokeWidth : ℚ) (strokeColor : String)
  | line (startX startY endX endY : ℚ) (strokeWidth : Option ℚ) (strokeColor : Option String)
  | arrow (startX startY endX endY : ℚ) (strokeWidth : Option ℚ) (strokeColor : Option String)
  | diamond (centerX centerY width height : ℚ) (strokeWidth : Option ℚ)
      (strokeColor : Option String) (cornerRadius : Option ℚ)
  | text (tb : TextBox)
deriving DecidableEq

/-- `StoredShape` from `Game.ts`: `{ id, shape, tempId? }`. -/
structure StoredShape where
  id : String
  shape : Shape
  tempId : Option String
deriving DecidableEq

/-- The id sequence of a store (used to state the uniqueness invariant). -/
def storeIds (store : List StoredShape) : List String :=
  store.map (fun s => s.id)

/-! ## Shape store operations (`Game.ts`)

Each operation is the body of the corresponding branch of
`Game.initHandlers` / `Game.mouseUpHandler` / `Game.bringToFront`,
restricted to its effect on `existingShapes` (rendering and selection
bookkeeping are not modelled). -/

/-- `mouseUpHandler` at gesture end:
`existingShapes.push({ id: pendingId, shape, tempId: pendingId })`. -/
def addPending (store : List StoredShape) (pendingId : String) (sh : Shape) :
    List StoredShape :=
  store ++ [⟨pendingId, sh, some pendingId⟩]

/-- The `findIndex` predicate of the `chat` branch:
`s.tempId === tempId || s.id === tempId`. -/
def matchesTemp (t : String) (s : StoredShape) : Bool :=
  s.tempId == some t || s.id == t

/-- `existingShapes.findIndex(...)` followed by
`existingShapes[idx] = { id: serverId, shape: serverShape }`: replace the
first entry matching the temp id, `none` when no entry matches. -/
def reconcileFirst (t : String) (entry : StoredShape) :
    List StoredShape → Option (List StoredShape)
  | [] => none
  | s :: rest =>
    if matchesTemp t s then some (entry :: rest)
    else (reconcileFirst t entry rest).map (fun l => s :: l)

/-- The fall-through of the `chat` branch: push `{ id: serverId, shape }`
unless an entry with that server id already exists. -/
def applyChatInsert (store : List StoredShape) (serverId : String) (sh : Shape) :
    List StoredShape :=
  if store.any (fun s => s.id == serverId) then store
  else store ++ [⟨serverId, sh, none⟩]

/-- The `chat` branch of `Game.initHandlers`.  The JS guard `if (tempId)`
is truthiness: it is skipped when `tempId` is absent (`none`) or the
empty string. -/
def applyChat (store : List StoredShape) (tempId : Option String)
    (serverId : String) (sh : Shape) : List StoredShape :=
  match tempId with
  | none => applyChatInsert store serverId sh
  | some t =>
    if t = "" then applyChatInsert store serverId sh
    else
      match reconcileFirst t ⟨serverId, sh, none⟩ store with
      | some store' => store'
      | none => applyChatInsert store serverId sh

/-- The `delete` branch:
`existingShapes = existingShapes.filter(s => s.id !== deletedId)`. -/
def applyRemoteDelete (store : List StoredShape) (deletedId : String) :
    List StoredShape :=
  store.filter (fun s => !(s.id == deletedId))

/-- `findIndex` plus `existingShapes[idx].shape = shape` of the `update`
branch: replace the shape of the first entry with the given id (its `id`
and `tempId` fields are untouched), `none` when absent. -/
def updateFirst (i : String) (sh : Shape) :
    List StoredShape → Option (List StoredShape)
  | [] => none
  | s :: rest =>
    if s.id == i then some ({ s with shape := sh } :: rest)
    else (updateFirst i sh rest).map (fun l => s :: l)

/-- The `update` branch of `Game.initHandlers`: replace in place if
present, otherwise push `{ id, shape }`. -/
def applyRemoteUpdate (store : List StoredShape) (i : String) (sh : Shape) :
    List StoredShape :=
  (updateFirst i sh store).getD (store ++ [⟨i, sh, none⟩])

/-- The JS `Map` built by the `reorder` branch
(`new Map(existingShapes.map(s => [s.id, s.shape]))`): later entries
overwrite earlier ones, so lookup returns the shape of the *last* entry
with the given id. -/
def lastShapeFor (store : List StoredShape) (i : String) : Option Shape :=
  (store.reverse.find? (fun s => s.id == i)).map (fun s => s.shape)

/-- First pass of the `reorder` branch: for each id of `order` present in
the map, push `{ id, shape }` (note: no `tempId` field). -/
def reorderPass1 (store : List StoredShape) (order : List String) :
    List StoredShape :=
  order.filterMap (fun i => (lastShapeFor store i).map (fun sh => ⟨i, sh, none⟩))

/-- Second pass of the `reorder` branch: append every prior entry whose id
is not already in the (growing) new list. -/
def reorderPass2 (store : List StoredShape) (acc : List StoredShape) :
    List StoredShape :=
  store.foldl
    (fun acc s => if acc.any (fun x => x.id == s.id) then acc else acc ++ [s])
    acc

/-- The `reorder` branch of `Game.initHandlers`. -/
def applyRemoteReorder (store : List StoredShape) (order : List String) :
    List StoredShape :=
  reorderPass2 store (reorderPass1 store order)

/-- `findIndex` plus `splice(idx, 1)` of `Game.bringToFront`: remove the
first entry with the given id, returning it together with the remainder. -/
def extractFirst (i : String) :
    List StoredShape → Option (StoredShape × List StoredShape)
  | [] => none
  | s :: rest =>
    if s.id == i then some (s, rest)
    else (extractFirst i rest).map (fun p => (p.1, s :: p.2))

/-- `Game.bringToFront`: move the entry to the end of the order (network
send not modelled). -/
def bringToFront (store : List StoredShape) (i : String) : List StoredShape :=
  match extractFirst i store with
  | none => store
  | some (s, rest) => rest ++ [s]

/-! ## Camera zoom (`Game.setZoom` and the wheel listener) -/

/-- The clamp in `Game.setZoom`:
`newZoom = Math.max(0.1, Math.min(8, newZoom))`; this clamped value is
what is assigned to `this.zoom` on every path of `setZoom`. -/
def setZoomValue (z : ℚ) : ℚ :=
  max (1/10) (min 8 z)

/-- The wheel listener of `Game.initMouseHandlers`: multiply the current
zoom by `1.12` (wheel up) or `1/1.12` (wheel down) and pass the product
to `setZoom`. -/
def wheelZoom (zoom : ℚ) (up : Bool) : ℚ :=
  setZoomValue (zoom * (if up then 112/100 else 100/112))

/-! ## Collaboration relay (`apps/ws-backend/src/index.ts`)

The relay's `message` handler is modelled as a function from a message to
its effect: the list of persistence calls it issues and the list of
per-connection deliveries produced by `broadcastToRoom`.  Membership
(`users`) is a parameter; asynchronous persistence outcomes are supplied
by a `DbOracle` record (success / failure of each `prismaClient` call),
so a handler run is the synchronous trace for one fixed outcome. -/

/-- A registered connection: `{ ws, rooms, userId }` (the socket handle is
identified with the user record itself). -/
structure Conn where
  userId : String
  rooms : List String
deriving DecidableEq

/-- Outbound payload objects passed to `broadcastToRoom`.  The source
constructs exactly these three object forms; no branch of the handler
builds a `reorder` payload. -/
inductive OutMsg
  | chatOut (i : Nat) (tempId : Option String) (sh : Option Shape) (roomId : String)
  | updateOut (i : String) (sh : Shape) (roomId : String)
  | deleteOut (i : String) (roomId : String)
deriving DecidableEq

/-- Inbound messages, after JSON parsing, keyed by their `type` field.  A
`chat` carries either a `shape` or a raw `message` string. -/
inductive InMsg
  | joinRoom (roomId : String)
  | leaveRoom (roomId : String)
  | chat (roomId : String) (tempId : Option String) (sh : Option Shape) (msg : Option String)
  | update (roomId : String) (i : String) (sh : Shape)
  | delete (roomId : String) (i : String)
  | reorder (roomId : String) (order : List String)
deriving DecidableEq

/-- Outcomes of the asynchronous `prismaClient` calls during one handler
run: `createResult` is the id of the row created by `chat.create`
(`none` models a thrown error), the booleans are success of
`chat.update` / `chat.delete`. -/
structure DbOracle where
  createResult : Option Nat
  updateOk : Bool
  deleteOk : Bool
deriving DecidableEq

/-- The effect of one handler run. -/
structure RelayEffect where
  persistAppends : List (String × Option Shape)
  persistUpdates : List (String × Shape)
  persistDeletes : List String
  deliveries : List (Conn × OutMsg)
deriving DecidableEq

def RelayEffect.empty : RelayEffect := ⟨[], [], [], []⟩

/-- `broadcastToRoom(roomId, payload)`: send to every registered
connection whose `rooms` includes `roomId`. -/
def broadcastToRoom (users : List Conn) (roomId : String) (payload : OutMsg) :
    List (Conn × OutMsg) :=
  (users.filter (fun u => roomId ∈ u.rooms)).map (fun u => (u, payload))

/-- `Number.isNaN(Number(shapeId))` of the `delete` case, restricted to the
id strings this system mints: decimal digit strings (server ids such as
`"42"`, and `""` which `Number` coerces to `0`) are numeric, while
`pending-<timestamp>` tokens coerce to `NaN`. -/
def numericId (s : String) : Bool :=
  s.data.all Char.isDigit

/-- The `switch (type)` dispatch of the `ws.on("message")` handler in
`apps/ws-backend/src/index.ts`, as its effect on persistence and
broadcast.

* `join_room` / `leave_room` mutate only membership: no effect here.
* `chat`: persist via `chat.create`; on success broadcast
  `{type:"chat", id: saved.id, tempId, shape, roomId}`.  (When the payload
  carried only a raw `message` string the re-parse for `shape` is
  modelled as yielding `null`, the source's result for non-shape
  messages; no claim depends on that branch.)
* `update`: persist via `chat.update`; the broadcast sits inside the same
  `try`, so it happens only on success.
* `delete`: when `Number(shapeId)` is `NaN`, the case `break`s before
  doing anything; otherwise `chat.delete` is attempted inside a `try` and
  the broadcast follows unconditionally after it.
* `reorder` has no case: it falls into `default` and is dropped. -/
def wsHandle (users : List Conn) (db : DbOracle) : InMsg → RelayEffect
  | .joinRoom _ => RelayEffect.empty
  | .leaveRoom _ => RelayEffect.empty
  | .chat roomId tempId sh msg =>
    if sh.isSome || msg.isSome then
      { persistAppends := [(roomId, sh)]
        persistUpdates := []
        persistDeletes := []
        deliveries :=
          match db.createResult with
          | some savedId =>
            broadcastToRoom users roomId (.chatOut savedId tempId sh roomId)
          | none => [] }
    else RelayEffect.empty
  | .update roomId i sh =>
    { persistAppends := []
      persistUpdates := [(i, sh)]
      persistDeletes := []
      deliveries :=
        if db.updateOk then broadcastToRoom users roomId (.updateOut i sh roomId)
        else [] }
  | .delete roomId i =>
    if numericId i then
      { persistAppends := []
        persistUpdates := []
        persistDeletes := [i]
        deliveries := broadcastToRoom users roomId (.deleteOut i roomId) }
    else RelayEffect.empty
  | .reorder _ _ => RelayEffect.empty

/-- The `delete` handler of the older relay copy of the repository (the
unnamed `ws-backend` variant): the numeric-id check only guards the
persistence call, and the broadcast is issued unconditionally. -/
def wsHandleDeleteLegacy (users : List Conn) (roomId : String) (i : String) :
    RelayEffect :=
  { persistAppends := []
    persistUpdates := []
    persistDeletes := if numericId i then [i] else []
    deliveries := broadcastToRoom users roomId (.deleteOut i roomId) }

/-! ## Tool geometry engine: bounding boxes and resize (`resize.ts`)

`resize.ts` and `select.ts` each contain a textually identical `bbox`
computation; it is embedded once as `bboxOf`. -/

inductive HandleName
  | nw
  | n
  | ne
  | e
  | se
  | s
  | sw
  | w
deriving DecidableEq

structure BBox where
  x : ℚ
  y : ℚ
  w : ℚ
  h : ℚ
deriving DecidableEq

structure Bounds4 where
  minx : ℚ
  miny : ℚ
  maxx : ℚ
  maxy : ℚ
deriving DecidableEq

/-- The min/max fold of the `pencil` case of `bbox` (the `±Infinity`
seeds of the source collapse into seeding with the first point). -/
def pencilBounds (p : ℚ × ℚ) (rest : List (ℚ × ℚ)) : Bounds4 :=
  rest.foldl
    (fun b q => ⟨min b.minx q.1, min b.miny q.2, max b.maxx q.1, max b.maxy q.2⟩)
    ⟨p.1, p.2, p.1, p.2⟩

/-- `bbox(shape)` from `resize.ts` (= `bboxOf` in `select.ts`). -/
def bboxOf (sh : Shape) : BBox :=
  match sh with
  | .rect x y w h _ _ => ⟨x, y, w, h⟩
  | .circle cx cy r _ _ => ⟨cx - |r|, cy - |r|, 2 * |r|, 2 * |r|⟩
  | .diamond cx cy w h _ _ _ => ⟨cx - w / 2, cy - h / 2, w, h⟩
  | .text tb => ⟨tb.x, tb.y, tb.width, tb.height⟩
  | .line x1 y1 x2 y2 _ _ => ⟨min x1 x2, min y1 y2, |x2 - x1|, |y2 - y1|⟩
  | .arrow x1 y1 x2 y2 _ _ => ⟨min x1 x2, min y1 y2, |x2 - x1|, |y2 - y1|⟩
  | .pencil [] _ _ => ⟨0, 0, 0, 0⟩
  | .pencil (p :: rest) _ _ =>
    let b := pencilBounds p rest
    ⟨b.minx, b.miny, b.maxx - b.minx, b.maxy - b.miny⟩

/-- `handlesFor(bbox)`: the eight handle centres. -/
def handlePos (b : BBox) : HandleName → ℚ × ℚ
  | .nw => (b.x, b.y)
  | .n => (b.x + b.w / 2, b.y)
  | .ne => (b.x + b.w, b.y)
  | .e => (b.x + b.w, b.y + b.h / 2)
  | .se => (b.x + b.w, b.y + b.h)
  | .s => (b.x + b.w / 2, b.y + b.h)
  | .sw => (b.x, b.y + b.h)
  | .w => (b.x, b.y + b.h / 2)

/-- `ResizeTool.computeNewBBoxFromHandle`: move only the edges the handle
implies, then clamp so width and height never fall below `minSize = 6`,
adjusting the side that moved. -/
def computeNewBBoxFromHandle (orig : BBox) (handle : HandleName) (dx dy : ℚ) :
    BBox :=
  let left := orig.x
  let top := orig.y
  let right := orig.x + orig.w
  let bottom := orig.y + orig.h
  let moved : ℚ × ℚ × ℚ × ℚ :=
    match handle with
    | .nw => (left + dx, top + dy, right, bottom)
    | .n => (left, top + dy, right, bottom)
    | .ne => (left, top + dy, right + dx, bottom)
    | .e => (left, top, right + dx, bottom)
    | .se => (left, top, right + dx, bottom + dy)
    | .s => (left, top, right, bottom + dy)
    | .sw => (left + dx, top, right, bottom + dy)
    | .w => (left + dx, top, right, bottom)
  let l0 := moved.1
  let t0 := moved.2.1
  let r0 := moved.2.2.1
  let b0 := moved.2.2.2
  let minSize : ℚ := 6
  let lr : ℚ × ℚ :=
    if r0 - l0 < minSize then
      if handle = .nw ∨ handle = .w ∨ handle = .sw then (r0 - minSize, r0)
      else (l0, l0 + minSize)
    else (l0, r0)
  let tb : ℚ × ℚ :=
    if b0 - t0 < minSize then
      if handle = .nw ∨ handle = .n ∨ handle = .ne then (b0 - minSize, b0)
      else (t0, t0 + minSize)
    else (t0, b0)
  ⟨lr.1, tb.1, lr.2 - lr.1, tb.2 - tb.1⟩

/-- `text.split(/\s+/)` of JS: split on whitespace runs; a leading
(resp. trailing) run contributes one empty token, and the empty string
splits to `[""]`. -/
def jsWordsSplit (t : String) : List String :=
  if t = "" then [""]
  else
    let toks := (t.split Char.isWhitespace).filter (fun w => w ≠ "")
    (if t.front.isWhitespace then [""] else []) ++ toks ++
      (if t.back.isWhitespace then [""] else [])

/-- One step of the word-wrapping loop shared by the text branches
(`measure` abstracts `ctx.measureText(...).width` at the current font). -/
def wrapStep (measure : String → ℚ) (width : ℚ) (acc : List String × String)
    (word : String) : List String × String :=
  let testLine := if acc.2 = "" then word else acc.2 ++ " " ++ word
  if width < measure testLine ∧ acc.2 ≠ "" then (acc.1 ++ [acc.2], word)
  else (acc.1, testLine)

/-- The word-wrapping loop: fold the words, then push the trailing line if
non-empty (JS truthiness of `currentLine`). -/
def wrapLines (measure : String → ℚ) (width : ℚ) (t : String) : List String :=
  let r := (jsWordsSplit t).foldl (wrapStep measure width) ([], "")
  if r.2 = "" then r.1 else r.1 ++ [r.2]

/-- `ResizeTool.applyResize` as a pure function of the gesture snapshot
(`originalShape`, active handle) and the pointer delta
`(dx, dy) = pointer - startPointer`.  `measure fs line` abstracts the
canvas text measurement at font size `fs`.  The early `return null` for a
missing gesture snapshot is not modelled (the snapshot is an argument
here), and rational division by zero yields `0` where JS would produce
`Infinity`/`NaN` (reachable only for a zero-height original text box or
zero-height original box in the text font scale). -/
def applyResize (measure : ℚ → String → ℚ) (orig : Shape) (handle : HandleName)
    (dx dy : ℚ) : Shape :=
  let origBBox := bboxOf orig
  match orig with
  | .rect _ _ _ _ sw sc =>
    let nb := computeNewBBoxFromHandle origBBox handle dx dy
    .rect nb.x nb.y (max 6 nb.w) (max 6 nb.h) sw sc
  | .circle _ _ _ sw sc =>
    let nb := computeNewBBoxFromHandle origBBox handle dx dy
    let size := max (max nb.w nb.h) 6
    .circle (nb.x + nb.w / 2) (nb.y + nb.h / 2) (max 3 (size / 2)) sw sc
  | .diamond _ _ _ _ sw sc cr =>
    let nb := computeNewBBoxFromHandle origBBox handle dx dy
    .diamond (nb.x + nb.w / 2) (nb.y + nb.h / 2) (max 6 nb.w) (max 6 nb.h) sw sc cr
  | .line x1 y1 x2 y2 sw sc =>
    if handle = .nw ∨ handle = .w ∨ handle = .sw then
      .line (x1 + dx) (y1 + dy) x2 y2 sw sc
    else if handle = .ne ∨ handle = .e ∨ handle = .se then
      .line x1 y1 (x2 + dx) (y2 + dy) sw sc
    else if |y1 - origBBox.y| < |y2 - origBBox.y| then
      .line (x1 + dx) (y1 + dy) x2 y2 sw sc
    else .line x1 y1 (x2 + dx) (y2 + dy) sw sc
  | .arrow x1 y1 x2 y2 sw sc =>
    if handle = .nw ∨ handle = .w ∨ handle = .sw then
      .arrow (x1 + dx) (y1 + dy) x2 y2 sw sc
    else if handle = .ne ∨ handle = .e ∨ handle = .se then
      .arrow x1 y1 (x2 + dx) (y2 + dy) sw sc
    else if |y1 - origBBox.y| < |y2 - origBBox.y| then
      .arrow (x1 + dx) (y1 + dy) x2 y2 sw sc
    else .arrow x1 y1 (x2 + dx) (y2 + dy) sw sc
  | .text tb =>
    let nb := computeNewBBoxFromHandle origBBox handle dx dy
    let width := max 30 nb.w
    let fs :=
      if handle = .n ∨ handle = .s ∨ handle = .nw ∨ handle = .ne ∨
          handle = .sw ∨ handle = .se then
        max 8 ((if tb.fontSize = 0 then 16 else tb.fontSize) * (nb.h / origBBox.h))
      else tb.fontSize
    let height :=
      if tb.text ≠ "" then
        (wrapLines (measure fs) width tb.text).length *
          ((if fs = 0 then 12 else fs) * (if tb.lineHeight = 0 then 12/10 else tb.lineHeight))
      else max 20 nb.h
    .text { tb with x := nb.x, y := nb.y, width := width, fontSize := fs,
                    height := height }
  | .pencil path sw sc =>
    let origW := if origBBox.w = 0 then 1 else origBBox.w
    let origH := if origBBox.h = 0 then 1 else origBBox.h
    let nb := computeNewBBoxFromHandle origBBox handle dx dy
    let scaleX := nb.w / origW
    let scaleY := nb.h / origH
    let cx := origBBox.x + origBBox.w / 2
    let cy := origBBox.y + origBBox.h / 2
    let newCx := nb.x + nb.w / 2
    let newCy := nb.y + nb.h / 2
    .pencil (path.map (fun p => ((p.1 - cx) * scaleX + newCx, (p.2 - cy) * scaleY + newCy)))
      sw sc

/-! ## Tool geometry engine: selection hit-test (`select.ts`) -/

/-- `Math.hypot(...) ≤ r` in exact arithmetic: for `s` the squared length,
`√s ≤ r ↔ 0 ≤ r ∧ s ≤ r²`. -/
def sqrtLeB (s r : ℚ) : Bool :=
  decide (0 ≤ r) && decide (s ≤ r ^ 2)

/-- The closest point of segment `(x1,y1)-(x2,y2)` to `(x,y)` as computed
by the `line`/`arrow` branch of `pointInShape` (degenerate segments take
`param = -1`, i.e. the start point). -/
def closestPointOnSegment (x y x1 y1 x2 y2 : ℚ) : ℚ × ℚ :=
  let c := x2 - x1
  let d := y2 - y1
  let len2 := c ^ 2 + d ^ 2
  let param := if len2 = 0 then -1 else ((x - x1) * c + (y - y1) * d) / len2
  if param < 0 then (x1, y1)
  else if 1 < param then (x2, y2)
  else (x1 + param * c, y1 + param * d)

/-- `pointInShape(x, y, shape, padding = 6)` from `select.ts`.  Square
roots are compared via `sqrtLeB` (exactly equivalent); everything else is
the source's rational arithmetic.  Note the `diamond` branch is an
axis-aligned box test (the source comment reads "bounding-box
approximate"). -/
def pointInShape (x y : ℚ) (sh : Shape) (padding : ℚ := 6) : Bool :=
  match sh with
  | .rect rx ry w h _ _ =>
    decide (rx - padding ≤ x) && decide (x ≤ rx + w + padding) &&
      decide (ry - padding ≤ y) && decide (y ≤ ry + h + padding)
  | .circle cx cy r _ _ =>
    sqrtLeB ((x - cx) ^ 2 + (y - cy) ^ 2) (|r| + padding)
  | .diamond cx cy w h _ _ _ =>
    decide (cx - (w / 2 + padding) ≤ x) && decide (x ≤ cx + (w / 2 + padding)) &&
      decide (cy - (h / 2 + padding) ≤ y) && decide (y ≤ cy + (h / 2 + padding))
  | .line x1 y1 x2 y2 sw _ =>
    let q := closestPointOnSegment x y x1 y1 x2 y2
    sqrtLeB ((x - q.1) ^ 2 + (y - q.2) ^ 2) (padding + sw.getD 4)
  | .arrow x1 y1 x2 y2 sw _ =>
    let q := closestPointOnSegment x y x1 y1 x2 y2
    sqrtLeB ((x - q.1) ^ 2 + (y - q.2) ^ 2) (padding + sw.getD 4)
  | .pencil [] _ _ => false
  | .pencil (p :: rest) _ _ =>
    let b := pencilBounds p rest
    decide (b.minx - padding ≤ x) && decide (x ≤ b.maxx + padding) &&
      decide (b.miny - padding ≤ y) && decide (y ≤ b.maxy + padding)
  | .text tb =>
    decide (tb.x - padding ≤ x) && decide (x ≤ tb.x + tb.width + padding) &&
      decide (tb.y - padding ≤ y) && decide (y ≤ tb.y + tb.height + padding)

/-- What `SelectTool.findAt` reports for a hit. -/
inductive HitInfo
  | handle (h : HandleName)
  | inside
deriving DecidableEq

/-- The handle scan of `SelectTool.findAt` (`handleSize = 10`, so
`half = 5`), in the object-key order `nw, n, ne, e, se, s, sw, w`. -/
def hitHandleAt (half : ℚ) (x y : ℚ) (b : BBox) : Option HandleName :=
  [HandleName.nw, .n, .ne, .e, .se, .s, .sw, .w].find? (fun k =>
    decide (|x - (handlePos b k).1| ≤ half) && decide (|y - (handlePos b k).2| ≤ half))

/-- `SelectTool.findAt`: scan stored shapes topmost first; handle hits
take precedence over interior hits on each shape. -/
def findAt (x y : ℚ) (stored : List StoredShape) : Option (String × HitInfo) :=
  stored.reverse.findSome? (fun s =>
    match hitHandleAt 5 x y (bboxOf s.shape) with
    | some k => some (s.id, .handle k)
    | none => if pointInShape x y s.shape 6 then some (s.id, .inside) else none)

/-- The containment test the spec ascribes to the diamond variant of the
selection hit-test, written from the spec's words: taxicab-normalized
distance from the centre, with the padding tolerance, at most 1. -/
def diamondTaxicabInside (x y cx cy w h padding : ℚ) : Bool :=
  decide (|x - cx| / (w / 2 + padding) + |y - cy| / (h / 2 + padding) ≤ 1)

/-! ## Freehand simplification (`pencil.ts`)

`simplifyRDP` compares perpendicular distances (real square roots in the
source) among themselves and against the tolerance.  Both comparisons are
translated to their exact squared equivalents, which keeps every value
rational: `lineDistSq p a b` is the square of the source's
`lineDistance(p, a, b)`, and `d > dmax` (resp. `dmax > ε`) becomes
`dSq > dmaxSq` (resp. `ε < 0 ∨ dmaxSq > ε²`). -/

def Pt : Type := ℚ × ℚ

instance : DecidableEq Pt := instDecidableEqProd

instance : Inhabited Pt := ⟨((0 : ℚ), (0 : ℚ))⟩

/-- Squared `pointDistance`. -/
def pointDistSq (a b : Pt) : ℚ :=
  (a.1 - b.1) ^ 2 + (a.2 - b.2) ^ 2

/-- The numerator of `lineDistance` before `Math.abs`
(`(b[0]-a[0])*(a[1]-p[1]) - (a[0]-p[0])*(b[1]-a[1])`). -/
def crossTerm (a b p : Pt) : ℚ :=
  (b.1 - a.1) * (a.2 - p.2) - (a.1 - p.1) * (b.2 - a.2)

/-- Squared chord length (`den²` of `lineDistance`). -/
def chordLenSq (a b : Pt) : ℚ :=
  (b.1 - a.1) ^ 2 + (b.2 - a.2) ^ 2

/-- Squared `lineDistance(p, a, b)`: `(num/den)²` when the chord is
non-degenerate (`den = 0` exactly when `chordLenSq = 0`), else the squared
point distance to `a`. -/
def lineDistSq (p a b : Pt) : ℚ :=
  if chordLenSq a b = 0 then pointDistSq p a
  else crossTerm a b p ^ 2 / chordLenSq a b

/-- The interior scan of `simplifyRDP`
(`for i in 1 .. points.length - 2`): returns the pair
`(dmax², index)` of the maximal squared deviation and its index, seeded
with `(0, 0)`. -/
def rdpScan (points : List Pt) : ℚ × ℕ :=
  (List.range' 1 (points.length - 2)).foldl
    (fun acc i =>
      let d := lineDistSq (points.getD i default) (points.headD default)
        (points.getLastD default)
      if acc.1 < d then (d, i) else acc)
    (0, 0)

/-- The scan step only ever installs indices from the scanned list, so the
resulting index is bounded by any bound on that list. -/
theorem scanFold_snd_le (g : ℕ → ℚ) (is : List ℕ) (bound : ℕ) :
    ∀ acc : ℚ × ℕ, acc.2 ≤ bound → (∀ i ∈ is, i ≤ bound) →
      (is.foldl (fun acc i => if acc.1 < g i then (g i, i) else acc) acc).2 ≤ bound := by
  induction is with
  | nil => intro acc hacc _; simpa using hacc
  | cons i is ih =>
    intro acc hacc his
    simp only [List.foldl_cons]
    refine ih _ ?_ (fun j hj => his j (List.mem_cons_of_mem _ hj))
    by_cases h : acc.1 < g i
    · simpa [h] using his i (List.mem_cons_self i is)
    · simpa [h] using hacc

/-- If the scan ends with a strictly positive maximum, the index was
installed by some step, hence satisfies any property shared by the scanned
indices. -/
theorem scanFold_pos_snd (g : ℕ → ℚ) (is : List ℕ) (p : ℕ → Prop) :
    ∀ acc : ℚ × ℕ, (0 < acc.1 → p acc.2) → (∀ i ∈ is, p i) →
      (0 < (is.foldl (fun acc i => if acc.1 < g i then (g i, i) else acc) acc).1 →
        p (is.foldl (fun acc i => if acc.1 < g i then (g i, i) else acc) acc).2) := by
  induction is with
  | nil => intro acc hacc _; simpa using hacc
  | cons i is ih =>
    intro acc hacc his
    simp only [List.foldl_cons]
    refine ih _ ?_ (fun j hj => his j (List.mem_cons_of_mem _ hj))
    by_cases h : acc.1 < g i
    · simp only [h, if_true]
      intro _
      exact his i (List.mem_cons_self i is)
    · simpa [h] using hacc

/-- The scanned index never exceeds `points.length - 2`. -/
theorem rdpScan_snd_le (points : List Pt) :
    (rdpScan points).2 ≤ points.length - 2 := by
  refine scanFold_snd_le _ _ _ (0, 0) (Nat.zero_le _) ?_
  intro i hi
  have := List.mem_range'.mp hi
  omega

/-- A strictly positive scan maximum forces a positive index (the scan
starts at index 1). -/
theorem rdpScan_pos_snd (points : List Pt) :
    0 < (rdpScan points).1 → 1 ≤ (rdpScan points).2 := by
  refine scanFold_pos_snd _ _ _ (0, 0) (by simp) ?_
  intro i hi
  have := List.mem_range'.mp hi
  omega

/-- `simplifyRDP(points, epsilon)` from `pencil.ts`.  The branch guard is
the source's `dmax > epsilon` (in squared form) strengthened by
`0 < index`: whenever `0 ≤ epsilon` the extra conjunct is implied
(`rdpScan_pos_snd`, since `dmax > ε ≥ 0` means some interior point was
installed), and in the remaining case (`ε < 0` with all interior
deviations zero) the source recursion calls itself on the whole input and
does not terminate, so the guard completes that divergence with the
`[first, last]` collapse. -/
def simplifyRDP (points : List Pt) (epsilon : ℚ) : List Pt :=
  if points.length < 3 then points
  else
    if hrec : (epsilon < 0 ∨ epsilon ^ 2 < (rdpScan points).1) ∧ 0 < (rdpScan points).2 then
      (simplifyRDP (points.take ((rdpScan points).2 + 1)) epsilon).dropLast ++
        simplifyRDP (points.drop ((rdpScan points).2)) epsilon
    else [points.headD default, points.getLastD default]
termination_by points.length
decreasing_by
  · have hb := rdpScan_snd_le points
    simp only [List.length_take]
    omega
  · have hb := rdpScan_snd_le points
    simp only [List.length_drop]
    omega

/-! ## Theorems -/

theorem head?_take_pos {α : Type} (l : List α) (n : ℕ) (h : 0 < n) :
    (l.take n).head? = l.head? := by
  cases l with
  | nil => simp
  | cons a t =>
    cases n with
    | zero => omega
    | succ m => simp

theorem getLast?_drop_lt {α : Type} (l : List α) (n : ℕ) (h : n < l.length) :
    (l.drop n).getLast? = l.getLast? := by
  induction l generalizing n with
  | nil => simp at h
  | cons a t ih =>
    cases n with
    | zero => simp
    | succ m =>
      simp only [List.drop_succ_cons]
      rw [ih m (by simpa using h)]
      cases t with
      | nil => simp at h
      | cons b u => simp [List.getLast?_cons_cons]

theorem head?_dropLast_two {α : Type} (l : List α) (h : 2 ≤ l.length) :
    l.dropLast.head? = l.head? := by
  cases l with
  | nil => simp at h
  | cons a t =>
    cases t with
    | nil => simp at h
    | cons b u => simp [List.dropLast]

theorem head?_eq_headD {α : Type} [Inhabited α] (l : List α) (h : l ≠ []) :
    l.head? = some (l.headD default) := by
  cases l with
  | nil => exact absurd rfl h
  | cons a t => rfl

theorem getLast?_eq_getLastD {α : Type} [Inhabited α] (l : List α) (h : l ≠ []) :
    l.getLast? = some (l.getLastD default) := by
  rw [List.getLastD_eq_getLast? _ _]
  cases hl : l.getLast? with
  | none => exact absurd (List.getLast?_eq_none_iff.mp hl) h
  | some x => rfl

/-- `simplifyRDP` preserves the first and the last point of its input, and
never shrinks a sequence of two or more points below two points.  (Proved
for every tolerance; the claim instantiates it at tolerances `≥ 0`, where
the embedding coincides with the source.) -/
theorem simplifyRDP_endpoints (points : List Pt) (epsilon : ℚ) :
    (simplifyRDP points epsilon).head? = points.head? ∧
      (simplifyRDP points epsilon).getLast? = points.getLast? ∧
      min points.length 2 ≤ (simplifyRDP points epsilon).length := by
  rw [simplifyRDP]
  by_cases h3 : points.length < 3
  · rw [if_pos h3]
    exact ⟨rfl, rfl, by omega⟩
  · rw [if_neg h3]
    by_cases hrec : (epsilon < 0 ∨ epsilon ^ 2 < (rdpScan points).1) ∧
        0 < (rdpScan points).2
    · rw [dif_pos hrec]
      have hb := rdpScan_snd_le points
      have hidx : 0 < (rdpScan points).2 := hrec.2
      have h1 := simplifyRDP_endpoints (points.take ((rdpScan points).2 + 1)) epsilon
      have h2 := simplifyRDP_endpoints (points.drop ((rdpScan points).2)) epsilon
      have htl : (points.take ((rdpScan points).2 + 1)).length = (rdpScan points).2 + 1 := by
        simp only [List.length_take]
        omega
      have hdl : (points.drop ((rdpScan points).2)).length =
          points.length - (rdpScan points).2 := List.length_drop _ _
      have hr1len : 2 ≤ (simplifyRDP (points.take ((rdpScan points).2 + 1)) epsilon).length := by
        have hx := h1.2.2
        rw [htl] at hx
        omega
      have hr2len : 1 ≤ (simplifyRDP (points.drop ((rdpScan points).2)) epsilon).length := by
        have hx := h2.2.2
        rw [hdl] at hx
        omega
      have hdlne : (simplifyRDP (points.take ((rdpScan points).2 + 1)) epsilon).dropLast ≠ [] := by
        apply List.ne_nil_of_length_pos
        rw [List.length_dropLast]
        omega
      have hr2ne : simplifyRDP (points.drop ((rdpScan points).2)) epsilon ≠ [] := by
        apply List.ne_nil_of_length_pos
        omega
      refine ⟨?_, ?_, ?_⟩
      · rw [List.head?_append_of_ne_nil _ hdlne, head?_dropLast_two _ hr1len, h1.1,
          head?_take_pos _ _ (Nat.succ_pos _)]
      · rw [List.getLast?_append_of_ne_nil _ hr2ne, h2.2.1,
          getLast?_drop_lt _ _ (by omega)]
      · rw [List.length_append, List.length_dropLast]
        omega
    · rw [dif_neg hrec]
      have hne : points ≠ [] := List.ne_nil_of_length_pos (by omega)
      refine ⟨?_, ?_, ?_⟩
      · rw [head?_eq_headD _ hne]
        rfl
      · rw [getLast?_eq_getLastD _ hne]
        rfl
      · simp only [List.length_cons, List.length_singleton]
        omega
termination_by points.length
decreasing_by
  · have hb := rdpScan_snd_le points
    simp only [List.length_take]
    omega
  · have hb := rdpScan_snd_le points
    simp only [List.length_drop]
    omega

/-! ### Shape-store lemmas -/

theorem storeIds_nil : storeIds [] = [] := rfl

theorem storeIds_cons (s : StoredShape) (rest : List StoredShape) :
    storeIds (s :: rest) = s.id :: storeIds rest := rfl

theorem storeIds_append (l1 l2 : List StoredShape) :
    storeIds (l1 ++ l2) = storeIds l1 ++ storeIds l2 := List.map_append ..

theorem mem_storeIds_of_mem (l : List StoredShape) (s : StoredShape)
    (h : s ∈ l) : s.id ∈ storeIds l := List.mem_map.mpr ⟨s, h, rfl⟩

theorem any_id_eq_false_iff (l : List StoredShape) (i : String) :
    l.any (fun x => x.id == i) = false ↔ i ∉ storeIds l := by
  constructor
  · intro h hmem
    rcases List.mem_map.mp hmem with ⟨s, hs, he⟩
    have := List.any_eq_false.mp h s hs
    simp only [beq_iff_eq] at this
    exact this he
  · intro h
    rw [List.any_eq_false]
    intro s hs
    simp only [beq_iff_eq]
    intro he
    exact h (List.mem_map.mpr ⟨s, hs, he⟩)

theorem any_id_eq_true_of_mem (l : List StoredShape) (s : StoredShape)
    (h : s ∈ l) : l.any (fun x => x.id == s.id) = true := by
  simp only [List.any_eq_true]
  exact ⟨s, h, by simp⟩

theorem eq_of_mem_of_nodup_ids (store : List StoredShape)
    (h : (storeIds store).Nodup) (a b : StoredShape) (ha : a ∈ store)
    (hb : b ∈ store) (hid : a.id = b.id) : a = b := by
  induction store with
  | nil => simp at ha
  | cons s rest ih =>
    rw [storeIds_cons] at h
    have hnotin : s.id ∉ storeIds rest := (List.nodup_cons.mp h).1
    have hrest : (storeIds rest).Nodup := (List.nodup_cons.mp h).2
    rcases List.mem_cons.mp ha with ha1 | ha1 <;>
      rcases List.mem_cons.mp hb with hb1 | hb1
    · rw [ha1, hb1]
    · exfalso
      apply hnotin
      rw [ha1] at hid
      rw [hid]
      exact mem_storeIds_of_mem rest b hb1
    · exfalso
      apply hnotin
      rw [hb1] at hid
      rw [← hid]
      exact mem_storeIds_of_mem rest a ha1
    · exact ih hrest ha1 hb1

/-- When every two elements satisfying `p` are equal, searching from the
back finds the same value as searching from the front. -/
theorem find?_reverse_unique {α : Type} (l : List α) (p : α → Bool)
    (h : ∀ a ∈ l, ∀ b ∈ l, p a = true → p b = true → a = b) :
    l.reverse.find? p = l.find? p := by
  induction l with
  | nil => rfl
  | cons a t ih =>
    have ih' := ih (fun x hx y hy => h x (List.mem_cons_of_mem _ hx) y (List.mem_cons_of_mem _ hy))
    simp only [List.reverse_cons, List.find?_append ..]
    rw [ih']
    by_cases hp : p a = true
    · simp only [List.find?_cons, hp, if_pos]
      cases hf : t.find? p with
      | none => simp [List.find?, hp]
      | some b =>
        have hb := List.mem_of_find?_eq_some hf
        have hpb := List.find?_some hf
        simp only [Option.or_some]
        rw [h b (List.mem_cons_of_mem _ hb) a (List.mem_cons_self _ _) hpb hp]
    · cases hf : t.find? p with
      | none => simp [List.find?, hp, hf]
      | some b => simp [List.find?, hp, hf]

theorem lastShapeFor_eq_find? (store : List StoredShape) (i : String)
    (h : (storeIds store).Nodup) :
    lastShapeFor store i =
      (store.find? (fun s => s.id == i)).map (fun s => s.shape) := by
  unfold lastShapeFor
  rw [find?_reverse_unique store (fun s => s.id == i)]
  intro a ha b hb hpa hpb
  exact eq_of_mem_of_nodup_ids store h a b ha hb
    (by rw [eq_of_beq hpa, eq_of_beq hpb])

theorem lastShapeFor_isSome_of_mem (store : List StoredShape)
    (s : StoredShape) (h : s ∈ store) : (lastShapeFor store s.id).isSome := by
  unfold lastShapeFor
  cases hf : store.reverse.find? (fun x => x.id == s.id) with
  | none =>
    exfalso
    have := List.find?_eq_none.mp hf s (by simpa using h)
    simp at this
  | some x => simp

theorem reorderPass1_ids (store : List StoredShape) (order : List String) :
    storeIds (reorderPass1 store order) =
      order.filter (fun i => (lastShapeFor store i).isSome) := by
  induction order with
  | nil => rfl
  | cons i rest ih =>
    simp only [reorderPass1, List.filterMap_cons] at *
    cases hl : lastShapeFor store i with
    | none => simpa [hl, storeIds] using ih
    | some sh => simpa [hl, storeIds] using ih

theorem reorderPass2_cons (s : StoredShape) (rest acc : List StoredShape) :
    reorderPass2 (s :: rest) acc =
      reorderPass2 rest
        (if acc.any (fun x => x.id == s.id) then acc else acc ++ [s]) := rfl

/-- Second-pass characterization, for stores satisfying the uniqueness
invariant: the new list is the accumulator followed by exactly those prior
entries whose id it does not already contain, in their prior order. -/
theorem reorderPass2_append (store : List StoredShape) :
    ∀ acc : List StoredShape, (storeIds store).Nodup →
      reorderPass2 store acc =
        acc ++ store.filter (fun s => !(acc.any (fun x => x.id == s.id))) := by
  induction store with
  | nil =>
    intro acc _
    simp [reorderPass2]
  | cons s rest ih =>
    intro acc h
    rw [storeIds_cons] at h
    have hs : s.id ∉ storeIds rest := (List.nodup_cons.mp h).1
    have hrest : (storeIds rest).Nodup := (List.nodup_cons.mp h).2
    rw [reorderPass2_cons]
    by_cases hc : acc.any (fun x => x.id == s.id) = true
    · rw [if_pos hc, ih acc hrest]
      simp [List.filter_cons, hc]
    · rw [if_neg hc, ih (acc ++ [s]) hrest]
      have hfc : rest.filter (fun x => !((acc ++ [s]).any (fun y => y.id == x.id))) =
          rest.filter (fun x => !(acc.any (fun y => y.id == x.id))) := by
        apply List.filter_congr
        intro x hx
        have hxs : (s.id == x.id) = false := by
          apply beq_false_of_ne
          intro he
          exact hs (by rw [he]; exact mem_storeIds_of_mem rest x hx)
        simp [List.any_append, hxs]
      rw [hfc]
      simp only [List.filter_cons, hc]
      simp

theorem storeIds_subset_reorderPass2 (store : List StoredShape) :
    ∀ acc : List StoredShape, ∀ i ∈ storeIds acc,
      i ∈ storeIds (reorderPass2 store acc) := by
  induction store with
  | nil =>
    intro acc i hi
    simpa [reorderPass2] using hi
  | cons s rest ih =>
    intro acc i hi
    rw [reorderPass2_cons]
    by_cases hc : acc.any (fun x => x.id == s.id) = true
    · rw [if_pos hc]; exact ih acc i hi
    · rw [if_neg hc]
      exact ih (acc ++ [s]) i (by simpa [storeIds] using Or.inl hi)

/-- No prior entry's id is dropped by the second pass, whatever the
accumulator and the (possibly duplicated) prior store. -/
theorem reorderPass2_keeps_ids (store : List StoredShape) :
    ∀ acc : List StoredShape, ∀ s ∈ store,
      s.id ∈ storeIds (reorderPass2 store acc) := by
  induction store with
  | nil => intro acc s hs; simp at hs
  | cons x rest ih =>
    intro acc s hs
    rw [reorderPass2_cons]
    rcases List.mem_cons.mp hs with h1 | h1
    · subst h1
      by_cases hc : acc.any (fun y => y.id == s.id) = true
      · rw [if_pos hc]
        have : s.id ∈ storeIds acc := by
          rcases List.any_eq_true.mp hc with ⟨y, hy, he⟩
          exact List.mem_map.mpr ⟨y, hy, eq_of_beq he⟩
        exact storeIds_subset_reorderPass2 rest acc s.id this
      · rw [if_neg hc]
        exact storeIds_subset_reorderPass2 rest (acc ++ [s]) s.id
          (by simp [storeIds])
    · by_cases hc : acc.any (fun y => y.id == x.id) = true
      · rw [if_pos hc]; exact ih acc s h1
      · rw [if_neg hc]; exact ih (acc ++ [x]) s h1

theorem reorderPass2_nodup (store : List StoredShape) :
    ∀ acc : List StoredShape, (storeIds acc).Nodup →
      (storeIds (reorderPass2 store acc)).Nodup := by
  induction store with
  | nil => intro acc h; simpa [reorderPass2] using h
  | cons s rest ih =>
    intro acc h
    rw [reorderPass2_cons]
    by_cases hc : acc.any (fun x => x.id == s.id) = true
    · rw [if_pos hc]; exact ih acc h
    · rw [if_neg hc]
      refine ih (acc ++ [s]) ?_
      have hnotin : s.id ∉ storeIds acc :=
        (any_id_eq_false_iff acc s.id).mp (by simpa using hc)
      simp only [storeIds, List.map_append, List.map_cons, List.map_nil]
      rw [List.nodup_append]
      exact ⟨h, List.nodup_singleton _, by
        intro a ha hb
        simp only [List.mem_singleton] at hb
        exact hnotin (by rw [← hb]; exact ha)⟩

/-- Decomposition of `applyRemoteReorder` for stores satisfying the
uniqueness invariant: the mentioned ids come first in the received order,
each rebuilt as `{id, shape}` from that id's (unique) prior entry, and the
unmentioned entries follow, untouched and in their prior relative
order. -/
theorem contains_eq_decide_mem (l : List String) (a : String) :
    l.contains a = decide (a ∈ l) := by
  simp [List.contains_eq_any_beq, List.any_eq_true]

theorem applyRemoteReorder_decomp (store : List StoredShape)
    (order : List String) (h : (storeIds store).Nodup) :
    applyRemoteReorder store order =
      order.filterMap (fun i => (store.find? (fun s => s.id == i)).map
        (fun s => ⟨s.id, s.shape, none⟩)) ++
      store.filter (fun s => !(order.contains s.id)) := by
  unfold applyRemoteReorder
  rw [reorderPass2_append store (reorderPass1 store order) h]
  congr 1
  · unfold reorderPass1
    apply List.filterMap_congr
    intro i _
    rw [lastShapeFor_eq_find? store i h]
    cases hf : store.find? (fun s => s.id == i) with
    | none => rfl
    | some s =>
      have hbeq : (s.id == i) = true := by simpa using List.find?_some hf
      have heq : s.id = i := eq_of_beq hbeq
      simp [heq]
  · apply List.filter_congr
    intro s hs
    have hiff : s.id ∈ storeIds (reorderPass1 store order) ↔ s.id ∈ order := by
      rw [reorderPass1_ids]
      constructor
      · intro hx
        exact (List.mem_filter.mp hx).1
      · intro hx
        exact List.mem_filter.mpr ⟨hx, lastShapeFor_isSome_of_mem store s hs⟩
    rw [contains_eq_decide_mem]
    congr 1
    rcases hmem : (reorderPass1 store order).any (fun x => x.id == s.id) with _ | _
    · have h1 : s.id ∉ storeIds (reorderPass1 store order) :=
        (any_id_eq_false_iff _ _).mp hmem
      symm
      simp only [decide_eq_false_iff_not]
      exact fun hx => h1 (hiff.mpr hx)
    · have h1 : s.id ∈ storeIds (reorderPass1 store order) := by
        rcases List.any_eq_true.mp hmem with ⟨x, hx, he⟩
        exact List.mem_map.mpr ⟨x, hx, eq_of_beq he⟩
      symm
      simp only [decide_eq_true_eq]
      exact hiff.mp h1

/-- C6: `applyRemoteReorder` drops no prior id, for any store and order
(first clause); and on a store satisfying the uniqueness invariant it
produces exactly the entries whose id appears in `order` — first, in the
order given, rebuilt from their prior shapes — followed by the entries
whose id is absent from `order`, untouched and in their prior relative
order (second clause). -/
theorem applyRemoteReorder_no_drop (store : List StoredShape)
    (order : List String) :
    (∀ s ∈ store, s.id ∈ storeIds (applyRemoteReorder store order)) ∧
      ((storeIds store).Nodup →
        applyRemoteReorder store order =
          order.filterMap (fun i => (store.find? (fun s => s.id == i)).map
            (fun s => ⟨s.id, s.shape, none⟩)) ++
          store.filter (fun s => !(order.contains s.id))) := by
  constructor
  · intro s hs
    exact reorderPass2_keeps_ids store (reorderPass1 store order) s hs
  · intro h
    exact applyRemoteReorder_decomp store order h

/-- Witness for `applyRemoteReorder_no_drop` on a two-entry store whose
first id is absent from the order. -/
theorem applyRemoteReorder_no_drop_witness :
    ("a" ∈ storeIds (applyRemoteReorder
        [⟨"a", .rect 0 0 1 1 none none, some "a"⟩,
         ⟨"b", .rect 2 2 3 3 none none, none⟩] ["b"])) ∧
      applyRemoteReorder
          [⟨"a", .rect 0 0 1 1 none none, some "a"⟩,
           ⟨"b", .rect 2 2 3 3 none none, none⟩] ["b"] =
        [⟨"b", .rect 2 2 3 3 none none, none⟩,
         ⟨"a", .rect 0 0 1 1 none none, some "a"⟩] := by
  have h := applyRemoteReorder_no_drop
    [⟨"a", .rect 0 0 1 1 none none, some "a"⟩,
     ⟨"b", .rect 2 2 3 3 none none, none⟩] ["b"]
  refine ⟨h.1 ⟨"a", .rect 0 0 1 1 none none, some "a"⟩ (by decide), ?_⟩
  rw [h.2 (by decide)]
  decide

/-- C9: on a store satisfying the uniqueness invariant, every entry of
`applyRemoteReorder`'s result either was rebuilt as `{id, shape}` with its
`tempId` discarded (exactly the mentioned ids) or is a prior entry kept
with all its fields; every prior entry whose id is mentioned reappears
with its shape unchanged and `tempId = none`, and every prior entry whose
id is unmentioned reappears identically, `tempId` included. -/
theorem applyRemoteReorder_tempId_frame (store : List StoredShape)
    (order : List String) (h : (storeIds store).Nodup) :
    (∀ x ∈ applyRemoteReorder store order,
        (x.id ∈ order ∧ x.tempId = none) ∨ x ∈ store) ∧
      (∀ s ∈ store, s.id ∈ order →
        (⟨s.id, s.shape, none⟩ : StoredShape) ∈ applyRemoteReorder store order) ∧
      (∀ s ∈ store, s.id ∉ order → s ∈ applyRemoteReorder store order) := by
  rw [applyRemoteReorder_decomp store order h]
  refine ⟨?_, ?_, ?_⟩
  · intro x hx
    rcases List.mem_append.mp hx with hx1 | hx1
    · left
      rcases List.mem_filterMap.mp hx1 with ⟨i, hi, hf⟩
      cases hfind : store.find? (fun s => s.id == i) with
      | none =>
        rw [hfind] at hf
        simp at hf
      | some s =>
        rw [hfind] at hf
        simp only [Option.map_some'] at hf
        have hsid : s.id = i := eq_of_beq (by simpa using List.find?_some hfind)
        have hx2 := Option.some.inj hf
        rw [← hx2]
        exact ⟨by simpa [hsid] using hi, rfl⟩
    · right
      exact (List.mem_filter.mp hx1).1
  · intro s hs hord
    apply List.mem_append.mpr
    left
    apply List.mem_filterMap.mpr
    refine ⟨s.id, hord, ?_⟩
    cases hfind : store.find? (fun x => x.id == s.id) with
    | none =>
      exfalso
      have := List.find?_eq_none.mp hfind s hs
      simp at this
    | some x =>
      have hx : x ∈ store := List.mem_of_find?_eq_some hfind
      have hxid : x.id = s.id := eq_of_beq (by simpa using List.find?_some hfind)
      have hxs : x = s := eq_of_mem_of_nodup_ids store h x s hx hs hxid
      rw [Option.map_some', hxs]
  · intro s hs hord
    apply List.mem_append.mpr
    right
    apply List.mem_filter.mpr
    refine ⟨hs, ?_⟩
    rw [contains_eq_decide_mem]
    simpa using hord

/-- Witness for `applyRemoteReorder_tempId_frame`: the mentioned entry
reappears with its `tempId` cleared, the unmentioned one verbatim. -/
theorem applyRemoteReorder_tempId_frame_witness :
    ((⟨"x", .circle 0 0 5 none none, none⟩ : StoredShape) ∈
        applyRemoteReorder
          [⟨"x", .circle 0 0 5 none none, some "t"⟩,
           ⟨"y", .line 0 0 1 1 none none, some "y"⟩] ["x"]) ∧
      ((⟨"y", .line 0 0 1 1 none none, some "y"⟩ : StoredShape) ∈
        applyRemoteReorder
          [⟨"x", .circle 0 0 5 none none, some "t"⟩,
           ⟨"y", .line 0 0 1 1 none none, some "y"⟩] ["x"]) := by
  have h := applyRemoteReorder_tempId_frame
    [⟨"x", .circle 0 0 5 none none, some "t"⟩,
     ⟨"y", .line 0 0 1 1 none none, some "y"⟩] ["x"] (by decide)
  exact ⟨h.2.1 ⟨"x", .circle 0 0 5 none none, some "t"⟩ (by decide) (by decide),
    h.2.2 ⟨"y", .line 0 0 1 1 none none, some "y"⟩ (by decide) (by decide)⟩

/-! ### Reconciliation lemmas (the `chat` branch) -/

theorem reconcileFirst_eq_none (t : String) (v : StoredShape) :
    ∀ store : List StoredShape, reconcileFirst t v store = none ↔
      ∀ s ∈ store, matchesTemp t s = false := by
  intro store
  induction store with
  | nil => simp [reconcileFirst]
  | cons s rest ih =>
    simp only [reconcileFirst]
    by_cases hm : matchesTemp t s = true
    · simp [hm]
    · rw [if_neg hm]
      simp only [Option.map_eq_none', ih]
      constructor
      · intro hall x hx
        rcases List.mem_cons.mp hx with h1 | h1
        · rw [h1]
          simpa using hm
        · exact hall x h1
      · intro hall x hx
        exact hall x (List.mem_cons_of_mem _ hx)

theorem reconcileFirst_eq_some (t : String) (v : StoredShape) :
    ∀ store st' : List StoredShape, reconcileFirst t v store = some st' →
      ∃ pre m suf, store = pre ++ m :: suf ∧ matchesTemp t m = true ∧
        (∀ s ∈ pre, matchesTemp t s = false) ∧ st' = pre ++ v :: suf := by
  intro store
  induction store with
  | nil =>
    intro st' h
    simp [reconcileFirst] at h
  | cons s rest ih =>
    intro st' h
    simp only [reconcileFirst] at h
    by_cases hm : matchesTemp t s = true
    · rw [if_pos hm] at h
      exact ⟨[], s, rest, by simp, hm, by simp, by simpa using (Option.some.inj h).symm⟩
    · rw [if_neg hm] at h
      cases hrec : reconcileFirst t v rest with
      | none =>
        rw [hrec] at h
        simp at h
      | some st'' =>
        rw [hrec] at h
        simp only [Option.map_some'] at h
        obtain ⟨pre, m, suf, h1, h2, h3, h4⟩ := ih st'' hrec
        refine ⟨s :: pre, m, suf, by simp [h1], h2, ?_, ?_⟩
        · intro x hx
          rcases List.mem_cons.mp hx with h5 | h5
          · rw [h5]
            simpa using hm
          · exact h3 x h5
        · rw [← Option.some.inj h, h4]
          simp

theorem reconcileFirst_append_none (t : String) (v : StoredShape)
    (a b : List StoredShape) (ha : ∀ s ∈ a, matchesTemp t s = false) :
    reconcileFirst t v (a ++ b) =
      (reconcileFirst t v b).map (fun l => a ++ l) := by
  induction a with
  | nil =>
    cases hb : reconcileFirst t v b <;> simp [hb]
  | cons s rest ih =>
    have hm : matchesTemp t s = false := ha s (List.mem_cons_self _ _)
    have ih' := ih (fun x hx => ha x (List.mem_cons_of_mem _ hx))
    simp only [List.cons_append, reconcileFirst, hm, Bool.false_eq_true, if_false]
    rw [show rest.append b = rest ++ b from rfl, ih']
    cases hb : reconcileFirst t v b <;> simp

theorem suffix_no_match (t : String) (pre suf : List StoredShape)
    (m : StoredShape) (hm : matchesTemp t m = true)
    (hc : (pre ++ m :: suf).countP (fun s => matchesTemp t s) ≤ 1) :
    ∀ s ∈ suf, matchesTemp t s = false := by
  rw [List.countP_append ..] at hc
  rw [List.countP_cons ..] at hc
  rw [hm] at hc
  simp only [if_pos] at hc
  have hsuf : suf.countP (fun s => matchesTemp t s) = 0 := by omega
  intro s hs
  have := List.countP_eq_zero.mp hsuf s hs
  simpa using this

theorem applyChatInsert_idem (store : List StoredShape) (serverId : String)
    (sh : Shape) :
    applyChatInsert (applyChatInsert store serverId sh) serverId sh =
      applyChatInsert store serverId sh := by
  by_cases hc : store.any (fun s => s.id == serverId) = true
  · have h1 : applyChatInsert store serverId sh = store := by
      simp [applyChatInsert, hc]
    rw [h1]
    exact h1
  · have h1 : applyChatInsert store serverId sh =
        store ++ [⟨serverId, sh, none⟩] := by
      simp only [applyChatInsert, hc]
      simp
    rw [h1]
    unfold applyChatInsert
    rw [if_pos]
    apply List.any_eq_true.mpr
    exact ⟨⟨serverId, sh, none⟩, by simp, by simp⟩

theorem applyChat_some_found (store st' : List StoredShape) (t serverId : String)
    (sh : Shape) (ht : ¬t = "")
    (h : reconcileFirst t ⟨serverId, sh, none⟩ store = some st') :
    applyChat store (some t) serverId sh = st' := by
  simp only [applyChat, if_neg ht, h]

theorem applyChat_some_notfound (store : List StoredShape) (t serverId : String)
    (sh : Shape) (ht : ¬t = "")
    (h : reconcileFirst t ⟨serverId, sh, none⟩ store = none) :
    applyChat store (some t) serverId sh = applyChatInsert store serverId sh := by
  simp only [applyChat, if_neg ht, h]

theorem applyChatInsert_of_present (store : List StoredShape) (serverId : String)
    (sh : Shape) (h : store.any (fun s => s.id == serverId) = true) :
    applyChatInsert store serverId sh = store := by
  simp [applyChatInsert, h]

/-- C5 (amended): applying the same reconciliation event twice leaves the
store exactly as after the first application, provided at most one entry
of the store matches the event's temp id (by `tempId` field or by `id`) —
which is the case in every reachable store, where a pending entry is the
unique holder of its temp id.  (Without that bound a second delivery can
re-match a different entry: see the counterexample.) -/
theorem applyChat_idempotent (store : List StoredShape) (tempId : Option String)
    (serverId : String) (sh : Shape)
    (h : ∀ t, tempId = some t → store.countP (fun s => matchesTemp t s) ≤ 1) :
    applyChat (applyChat store tempId serverId sh) tempId serverId sh =
      applyChat store tempId serverId sh := by
  cases tempId with
  | none =>
    simp only [applyChat]
    exact applyChatInsert_idem store serverId sh
  | some t =>
    by_cases ht : t = ""
    · simp only [applyChat, ht, if_pos]
      exact applyChatInsert_idem store serverId sh
    · have hcount : store.countP (fun s => matchesTemp t s) ≤ 1 := h t rfl
      cases hrec : reconcileFirst t ⟨serverId, sh, none⟩ store with
      | none =>
        have hnomatch := (reconcileFirst_eq_none t ⟨serverId, sh, none⟩ store).mp hrec
        rw [applyChat_some_notfound store t serverId sh ht hrec]
        by_cases hc : store.any (fun s => s.id == serverId) = true
        · rw [applyChatInsert_of_present store serverId sh hc]
          rw [applyChat_some_notfound store t serverId sh ht hrec]
          exact applyChatInsert_of_present store serverId sh hc
        · have hL : applyChatInsert store serverId sh =
              store ++ [⟨serverId, sh, none⟩] := by
            simp only [applyChatInsert, hc]
            simp
          rw [hL]
          by_cases hst : serverId = t
          · have hfound : reconcileFirst t ⟨serverId, sh, none⟩
                (store ++ [⟨serverId, sh, none⟩]) =
                some (store ++ [⟨serverId, sh, none⟩]) := by
              rw [reconcileFirst_append_none t _ store _ hnomatch]
              have : reconcileFirst t ⟨serverId, sh, none⟩ [⟨serverId, sh, none⟩] =
                  some [⟨serverId, sh, none⟩] := by
                simp [reconcileFirst, matchesTemp, hst]
              rw [this]
              rfl
            exact applyChat_some_found _ _ t serverId sh ht hfound
          · have hnone : reconcileFirst t ⟨serverId, sh, none⟩
                (store ++ [⟨serverId, sh, none⟩]) = none := by
              rw [reconcileFirst_append_none t _ store _ hnomatch]
              have : reconcileFirst t ⟨serverId, sh, none⟩ [⟨serverId, sh, none⟩] =
                  none := by
                simp [reconcileFirst, matchesTemp, hst]
              rw [this]
              rfl
            rw [applyChat_some_notfound _ t serverId sh ht hnone]
            apply applyChatInsert_of_present
            apply List.any_eq_true.mpr
            exact ⟨⟨serverId, sh, none⟩, by simp, by simp⟩
      | some st' =>
        obtain ⟨pre, m, suf, hdec, hm, hpre, hst'⟩ :=
          reconcileFirst_eq_some t ⟨serverId, sh, none⟩ store st' hrec
        have hsuf : ∀ s ∈ suf, matchesTemp t s = false := by
          apply suffix_no_match t pre suf m hm
          rw [← hdec]
          exact hcount
        rw [applyChat_some_found store st' t serverId sh ht hrec, hst']
        by_cases hserid : serverId = t
        · have hfound : reconcileFirst t ⟨serverId, sh, none⟩
              (pre ++ ⟨serverId, sh, none⟩ :: suf) =
              some (pre ++ ⟨serverId, sh, none⟩ :: suf) := by
            rw [reconcileFirst_append_none t _ pre _ hpre]
            have : reconcileFirst t ⟨serverId, sh, none⟩
                (⟨serverId, sh, none⟩ :: suf) =
                some (⟨serverId, sh, none⟩ :: suf) := by
              simp [reconcileFirst, matchesTemp, hserid]
            rw [this]
            rfl
          exact applyChat_some_found _ _ t serverId sh ht hfound
        · have hvno : matchesTemp t (⟨serverId, sh, none⟩ : StoredShape) = false := by
            simp [matchesTemp, hserid]
          have hnone : reconcileFirst t ⟨serverId, sh, none⟩
              (pre ++ ⟨serverId, sh, none⟩ :: suf) = none := by
            rw [reconcileFirst_append_none t _ pre _ hpre]
            have : reconcileFirst t ⟨serverId, sh, none⟩
                (⟨serverId, sh, none⟩ :: suf) = none := by
              simp only [reconcileFirst, hvno, Bool.false_eq_true, if_false]
              rw [(reconcileFirst_eq_none t _ suf).mpr hsuf]
              rfl
            rw [this]
            rfl
          rw [applyChat_some_notfound _ t serverId sh ht hnone]
          apply applyChatInsert_of_present
          apply List.any_eq_true.mpr
          exact ⟨⟨serverId, sh, none⟩, by simp, by simp⟩

/-- Witness for `applyChat_idempotent`: the normal pending-to-durable
reconciliation, delivered twice. -/
theorem applyChat_idempotent_witness :
    applyChat (applyChat
        [⟨"pending-7", .rect 0 0 1 1 none none, some "pending-7"⟩]
        (some "pending-7") "42" (.rect 0 0 1 1 none none))
      (some "pending-7") "42" (.rect 0 0 1 1 none none) =
    applyChat [⟨"pending-7", .rect 0 0 1 1 none none, some "pending-7"⟩]
      (some "pending-7") "42" (.rect 0 0 1 1 none none) :=
  applyChat_idempotent _ _ _ _ (by
    intro t ht
    simp only [Option.some.injEq] at ht
    subst ht
    decide)

/-- C5 counterexample: with one entry carrying `tempId = "t"` and another
whose `id` is `"t"`, the identical reconciliation applied twice replaces a
*different* entry the second time, so the store changes again. -/
theorem applyChat_not_idempotent :
    applyChat (applyChat
        [⟨"a", .rect 0 0 1 1 none none, some "t"⟩,
         ⟨"t", .rect 0 0 2 2 none none, none⟩]
        (some "t") "d" (.rect 0 0 3 3 none none))
      (some "t") "d" (.rect 0 0 3 3 none none) ≠
    applyChat [⟨"a", .rect 0 0 1 1 none none, some "t"⟩,
         ⟨"t", .rect 0 0 2 2 none none, none⟩]
      (some "t") "d" (.rect 0 0 3 3 none none) := by
  decide

/-! ### Store-uniqueness lemmas (one per operation) -/

theorem addPending_nodup (store : List StoredShape) (pid : String) (sh : Shape)
    (h : (storeIds store).Nodup) (hok : pid ∉ storeIds store) :
    (storeIds (addPending store pid sh)).Nodup := by
  simp only [addPending, storeIds_append, storeIds_cons, storeIds_nil]
  rw [List.nodup_append]
  refine ⟨h, List.nodup_singleton _, ?_⟩
  intro a ha hb
  rw [List.mem_singleton] at hb
  exact hok (hb ▸ ha)

theorem applyChatInsert_nodup (store : List StoredShape) (serverId : String)
    (sh : Shape) (h : (storeIds store).Nodup) :
    (storeIds (applyChatInsert store serverId sh)).Nodup := by
  unfold applyChatInsert
  by_cases hc : store.any (fun s => s.id == serverId) = true
  · rwa [if_pos hc]
  · rw [if_neg hc]
    have hnotin : serverId ∉ storeIds store :=
      (any_id_eq_false_iff store serverId).mp (by simpa using hc)
    simp only [storeIds_append, storeIds_cons, storeIds_nil]
    rw [List.nodup_append]
    refine ⟨h, List.nodup_singleton _, ?_⟩
    intro a ha hb
    rw [List.mem_singleton] at hb
    exact hnotin (hb ▸ ha)

theorem applyChat_nodup (store : List StoredShape) (tempId : Option String)
    (serverId : String) (sh : Shape) (h : (storeIds store).Nodup)
    (hok : serverId ∉ storeIds store) :
    (storeIds (applyChat store tempId serverId sh)).Nodup := by
  cases tempId with
  | none => exact applyChatInsert_nodup store serverId sh h
  | some t =>
    by_cases ht : t = ""
    · simp only [applyChat, ht, if_pos]
      exact applyChatInsert_nodup store serverId sh h
    · cases hrec : reconcileFirst t ⟨serverId, sh, none⟩ store with
      | none =>
        rw [applyChat_some_notfound store t serverId sh ht hrec]
        exact applyChatInsert_nodup store serverId sh h
      | some st' =>
        rw [applyChat_some_found store st' t serverId sh ht hrec]
        obtain ⟨pre, m, suf, hdec, hm, hpre, hst'⟩ :=
          reconcileFirst_eq_some t ⟨serverId, sh, none⟩ store st' hrec
        subst hdec
        rw [hst']
        rw [storeIds_append, storeIds_cons] at h hok ⊢
        have h1 : (m.id :: (storeIds pre ++ storeIds suf)).Nodup :=
          List.nodup_middle.mp h
        have h2 : serverId ∉ storeIds pre ++ storeIds suf := by
          intro hmem
          apply hok
          rcases List.mem_append.mp hmem with h3 | h3
          · exact List.mem_append.mpr (Or.inl h3)
          · exact List.mem_append.mpr (Or.inr (List.mem_cons_of_mem _ h3))
        apply List.nodup_middle.mpr
        exact List.nodup_cons.mpr ⟨h2, (List.nodup_cons.mp h1).2⟩

theorem updateFirst_none_iff (i : String) (sh : Shape) :
    ∀ store : List StoredShape, updateFirst i sh store = none ↔
      ∀ s ∈ store, (s.id == i) = false := by
  intro store
  induction store with
  | nil => simp [updateFirst]
  | cons s rest ih =>
    simp only [updateFirst]
    by_cases hm : (s.id == i) = true
    · rw [if_pos hm]
      constructor
      · intro hcontra
        simp at hcontra
      · intro hall
        have := hall s (List.mem_cons_self _ _)
        rw [hm] at this
        simp at this
    · rw [if_neg hm]
      simp only [Option.map_eq_none', ih]
      constructor
      · intro hall x hx
        rcases List.mem_cons.mp hx with h1 | h1
        · rw [h1]
          simpa using hm
        · exact hall x h1
      · intro hall x hx
        exact hall x (List.mem_cons_of_mem _ hx)

theorem updateFirst_ids (i : String) (sh : Shape) :
    ∀ store st' : List StoredShape, updateFirst i sh store = some st' →
      storeIds st' = storeIds store := by
  intro store
  induction store with
  | nil =>
    intro st' h
    simp [updateFirst] at h
  | cons s rest ih =>
    intro st' h
    simp only [updateFirst] at h
    by_cases hm : (s.id == i) = true
    · rw [if_pos hm] at h
      rw [← Option.some.inj h]
      rfl
    · rw [if_neg hm] at h
      cases hrec : updateFirst i sh rest with
      | none =>
        rw [hrec] at h
        simp at h
      | some st'' =>
        rw [hrec] at h
        simp only [Option.map_some'] at h
        rw [← Option.some.inj h]
        rw [storeIds_cons, storeIds_cons, ih st'' hrec]

theorem applyRemoteUpdate_nodup (store : List StoredShape) (i : String)
    (sh : Shape) (h : (storeIds store).Nodup) :
    (storeIds (applyRemoteUpdate store i sh)).Nodup := by
  unfold applyRemoteUpdate
  cases hu : updateFirst i sh store with
  | some st' =>
    simp only [Option.getD_some]
    rw [updateFirst_ids i sh store st' hu]
    exact h
  | none =>
    simp only [Option.getD_none]
    have hall := (updateFirst_none_iff i sh store).mp hu
    have hnotin : i ∉ storeIds store := by
      intro hmem
      rcases List.mem_map.mp hmem with ⟨s, hs, he⟩
      have := hall s hs
      rw [he] at this
      simp at this
    simp only [storeIds_append, storeIds_cons, storeIds_nil]
    rw [List.nodup_append]
    refine ⟨h, List.nodup_singleton _, ?_⟩
    intro a ha hb
    rw [List.mem_singleton] at hb
    exact hnotin (hb ▸ ha)

theorem applyRemoteDelete_nodup (store : List StoredShape) (i : String)
    (h : (storeIds store).Nodup) :
    (storeIds (applyRemoteDelete store i)).Nodup := by
  show (List.map (fun s => s.id) (store.filter (fun s => !(s.id == i)))).Nodup
  exact h.sublist ((List.filter_sublist store).map (fun s => s.id))

theorem applyRemoteReorder_nodup (store : List StoredShape)
    (order : List String) (ho : order.Nodup) :
    (storeIds (applyRemoteReorder store order)).Nodup := by
  apply reorderPass2_nodup
  rw [reorderPass1_ids]
  exact ho.filter _

theorem extractFirst_decomp (i : String) :
    ∀ (store : List StoredShape) (m : StoredShape) (rest' : List StoredShape),
      extractFirst i store = some (m, rest') →
      ∃ pre suf, store = pre ++ m :: suf ∧ rest' = pre ++ suf := by
  intro store
  induction store with
  | nil =>
    intro m r h
    simp [extractFirst] at h
  | cons s rest ih =>
    intro m r h
    simp only [extractFirst] at h
    by_cases hm : (s.id == i) = true
    · rw [if_pos hm] at h
      have h2 := Option.some.inj h
      have hm1 : s = m := congrArg Prod.fst h2
      have hr1 : rest = r := congrArg Prod.snd h2
      exact ⟨[], rest, by simp [hm1], by simp [hr1]⟩
    · rw [if_neg hm] at h
      cases he : extractFirst i rest with
      | none =>
        rw [he] at h
        simp at h
      | some p =>
        rw [he] at h
        simp only [Option.map_some'] at h
        have h2 := Option.some.inj h
        have hm1 : p.1 = m := congrArg Prod.fst h2
        have hr1 : s :: p.2 = r := congrArg Prod.snd h2
        obtain ⟨pre, suf, hd1, hd2⟩ := ih p.1 p.2 he
        refine ⟨s :: pre, suf, ?_, ?_⟩
        · rw [← hm1, List.cons_append, ← hd1]
        · rw [← hr1, hd2]
          rfl

theorem bringToFront_nodup (store : List StoredShape) (i : String)
    (h : (storeIds store).Nodup) :
    (storeIds (bringToFront store i)).Nodup := by
  unfold bringToFront
  cases he : extractFirst i store with
  | none => exact h
  | some p =>
    obtain ⟨m, rest'⟩ := p
    obtain ⟨pre, suf, hd1, hd2⟩ := extractFirst_decomp i store m rest' he
    rw [hd2]
    have hperm : ((pre ++ suf) ++ [m]).Perm (pre ++ m :: suf) := by
      refine List.Perm.trans (List.perm_append_singleton _ _) ?_
      exact List.perm_middle.symm
    apply (hperm.map (fun s => s.id)).nodup_iff.mpr
    show (storeIds (pre ++ m :: suf)).Nodup
    rw [← hd1]
    exact h

/-! ### The store event system (C4) -/

/-- The store operations named by the uniqueness claim, as events. -/
inductive StoreEvent
  | addPendingEv (pendingId : String) (sh : Shape)
  | chatEv (tempId : Option String) (serverId : String) (sh : Shape)
  | updateEv (i : String) (sh : Shape)
  | deleteEv (i : String)
  | reorderEv (order : List String)
  | toFrontEv (i : String)
deriving DecidableEq

/-- One store transition per event. -/
def stepStore (store : List StoredShape) : StoreEvent → List StoredShape
  | .addPendingEv pid sh => addPending store pid sh
  | .chatEv t sid sh => applyChat store t sid sh
  | .updateEv i sh => applyRemoteUpdate store i sh
  | .deleteEv i => applyRemoteDelete store i
  | .reorderEv order => applyRemoteReorder store order
  | .toFrontEv i => bringToFront store i

/-- Freshness side conditions under which uniqueness is preserved: a
pending id must be fresh, a reconciliation's durable id must be fresh, and
a reorder list must be duplicate-free.  Update, delete and bring-to-front
need no condition. -/
def eventOK (store : List StoredShape) : StoreEvent → Prop
  | .addPendingEv pid _ => pid ∉ storeIds store
  | .chatEv _ sid _ => sid ∉ storeIds store
  | .reorderEv order => order.Nodup
  | .updateEv _ _ => True
  | .deleteEv _ => True
  | .toFrontEv _ => True

/-- The side conditions along a whole event sequence. -/
def eventsOK (store : List StoredShape) : List StoreEvent → Prop
  | [] => True
  | e :: es => eventOK store e ∧ eventsOK (stepStore store e) es

theorem stepStore_nodup (store : List StoredShape) (e : StoreEvent)
    (h : (storeIds store).Nodup) (hok : eventOK store e) :
    (storeIds (stepStore store e)).Nodup := by
  cases e with
  | addPendingEv pid sh => exact addPending_nodup store pid sh h hok
  | chatEv t sid sh => exact applyChat_nodup store t sid sh h hok
  | updateEv i sh => exact applyRemoteUpdate_nodup store i sh h
  | deleteEv i => exact applyRemoteDelete_nodup store i h
  | reorderEv order => exact applyRemoteReorder_nodup store order hok
  | toFrontEv i => exact bringToFront_nodup store i h

/-- C4 (amended): after every sequence of store operations the store holds
no two entries with the same id, provided each generated pending id is
fresh, each reconciliation's durable id is fresh, and each reorder list is
duplicate-free.  (Two shapes created within the same timestamp resolution
violate the first condition and do produce duplicate ids: see the
counterexample.) -/
theorem storeEvents_nodup (events : List StoreEvent) :
    ∀ store : List StoredShape, (storeIds store).Nodup →
      eventsOK store events →
      (storeIds (events.foldl stepStore store)).Nodup := by
  induction events with
  | nil =>
    intro store h _
    simpa using h
  | cons e es ih =>
    intro store h hok
    simp only [List.foldl_cons]
    exact ih (stepStore store e) (stepStore_nodup store e h hok.1) hok.2

/-- Witness for `storeEvents_nodup`: a pending creation followed by its
reconciliation, starting from the empty store. -/
theorem storeEvents_nodup_witness :
    eventsOK []
        [StoreEvent.addPendingEv "pending-1" (.rect 0 0 1 1 none none),
         StoreEvent.chatEv (some "pending-1") "42" (.rect 0 0 1 1 none none)] ∧
      (storeIds (List.foldl stepStore []
        [StoreEvent.addPendingEv "pending-1" (.rect 0 0 1 1 none none),
         StoreEvent.chatEv (some "pending-1") "42" (.rect 0 0 1 1 none none)])).Nodup := by
  have hok : eventsOK []
      [StoreEvent.addPendingEv "pending-1" (.rect 0 0 1 1 none none),
       StoreEvent.chatEv (some "pending-1") "42" (.rect 0 0 1 1 none none)] := by
    refine ⟨?_, ?_, trivial⟩
    · show "pending-1" ∉ storeIds []
      simp [storeIds]
    · show "42" ∉ storeIds (stepStore []
        (StoreEvent.addPendingEv "pending-1" (.rect 0 0 1 1 none none)))
      decide
  exact ⟨hok, storeEvents_nodup _ [] (by simp [storeIds]) hok⟩

/-- C4 counterexample: two gesture ends within the same `Date.now()`
millisecond generate the same pending id, and the store then holds two
entries with the same id. -/
theorem addPending_collision_duplicates :
    ¬ (storeIds (List.foldl stepStore []
        [StoreEvent.addPendingEv "pending-5" (.rect 0 0 1 1 none none),
         StoreEvent.addPendingEv "pending-5" (.rect 0 0 1 1 none none)])).Nodup := by
  decide

/-- C7: for every freehand point sequence and every tolerance `≥ 0`, the
Ramer–Douglas–Peucker simplification returns a sequence with exactly the
input's first point first and the input's last point last. -/
theorem simplifyRDP_preserves_endpoints (points : List Pt) (epsilon : ℚ)
    (heps : 0 ≤ epsilon) :
    (simplifyRDP points epsilon).head? = points.head? ∧
      (simplifyRDP points epsilon).getLast? = points.getLast? :=
  ⟨(simplifyRDP_endpoints points epsilon).1, (simplifyRDP_endpoints points epsilon).2.1⟩

/-- Witness for `simplifyRDP_preserves_endpoints` at a concrete stroke and
the source's tolerance `1.5`. -/
theorem simplifyRDP_preserves_endpoints_witness :
    (0 : ℚ) ≤ 3/2 ∧
      ((simplifyRDP [((0 : ℚ), (0 : ℚ)), (5, 7), (10, 0)] (3/2)).head? =
          some ((0 : ℚ), (0 : ℚ)) ∧
        (simplifyRDP [((0 : ℚ), (0 : ℚ)), (5, 7), (10, 0)] (3/2)).getLast? =
          some ((10 : ℚ), (0 : ℚ))) :=
  ⟨by norm_num, simplifyRDP_preserves_endpoints [((0 : ℚ), (0 : ℚ)), (5, 7), (10, 0)] (3/2) (by norm_num)⟩

/-- C10: every zoom value stored by `setZoom` — including values produced
by repeated wheel-zoom multiplication — lies in the closed interval
`[0.1, 8]`. -/
theorem setZoom_bounded (z zoom : ℚ) (up : Bool) :
    1/10 ≤ setZoomValue z ∧ setZoomValue z ≤ 8 ∧
      1/10 ≤ wheelZoom zoom up ∧ wheelZoom zoom up ≤ 8 := by
  refine ⟨le_max_left _ _, max_le (by norm_num) (min_le_left _ _),
    le_max_left _ _, max_le (by norm_num) (min_le_left _ _)⟩

/-- C1: an inbound `reorder` message matches no case of the relay's
`switch` and falls into the logging `default`: the relay issues no
persistence call for it and broadcasts nothing — for any membership
state, the effect is empty, so no connection joined to the room receives
the order. -/
theorem wsHandle_reorder_dropped (users : List Conn) (db : DbOracle)
    (roomId : String) (order : List String) :
    wsHandle users db (.reorder roomId order) = RelayEffect.empty := rfl

/-- C1 evidence at a concrete input: a room with a joined connection, yet
a `reorder` for that room is delivered to nobody. -/
theorem wsHandle_reorder_dropped_concrete :
    (wsHandle [⟨"u1", ["1"]⟩] ⟨some 5, true, true⟩ (.reorder "1" ["2", "1"])).deliveries = [] ∧
      broadcastToRoom [⟨"u1", ["1"]⟩] "1" (.deleteOut "2" "1") =
        [(⟨"u1", ["1"]⟩, .deleteOut "2" "1")] := by
  constructor <;> rfl

/-- C2 counterexample: a `delete` whose id is not numeric (an ephemeral
`pending-` id) is dropped by the relay before the broadcast: the single
connection joined to room `"1"` receives nothing, although the claim
promises the delete event is broadcast regardless of validation. -/
theorem wsHandle_delete_nonNumeric_not_broadcast :
    (wsHandle [⟨"u1", ["1"]⟩] ⟨none, true, true⟩ (.delete "1" "pending-1")).deliveries = [] ∧
      (List.filter (fun u => decide ("1" ∈ u.rooms)) [(⟨"u1", ["1"]⟩ : Conn)]) ≠ [] := by
  constructor
  · decide
  · decide

/-- C2 (amended): the relay persists a `delete` exactly when the carried
id is numeric, and in exactly that case broadcasts the delete event to
every connection whose membership includes the room; a non-numeric id is
dropped with no persistence call and no broadcast.  The effect does not
depend on the persistence outcome `db` (the broadcast follows the
`try`/`catch`). -/
theorem wsHandle_delete_spec (users : List Conn) (db : DbOracle)
    (roomId i : String) :
    (wsHandle users db (.delete roomId i)).persistDeletes =
        (if numericId i then [i] else []) ∧
      (wsHandle users db (.delete roomId i)).deliveries =
        (if numericId i then
          (users.filter (fun u => roomId ∈ u.rooms)).map
            (fun u => (u, OutMsg.deleteOut i roomId))
        else []) := by
  by_cases h : numericId i <;>
    simp [wsHandle, broadcastToRoom, h, RelayEffect.empty]

/-- The older relay copy in the repository broadcasts a `delete`
unconditionally, guarding only the persistence call with the numeric-id
check (this is the behaviour the spec describes). -/
theorem wsHandleDeleteLegacy_broadcasts (users : List Conn) (roomId i : String) :
    (wsHandleDeleteLegacy users roomId i).deliveries =
      (users.filter (fun u => roomId ∈ u.rooms)).map
        (fun u => (u, OutMsg.deleteOut i roomId)) := rfl

/-- C8 counterexample: for the diamond centred at the origin with width
and height 20 (padding 6), the corner point `(16, 16)` is classified
inside by the selection hit-test, although its taxicab-normalized
distance from the centre, `16/16 + 16/16 = 2`, exceeds 1. -/
theorem pointInShape_diamond_not_taxicab :
    pointInShape 16 16 (.diamond 0 0 20 20 none none none) 6 = true ∧
      diamondTaxicabInside 16 16 0 0 20 20 6 = false := by
  constructor
  · simp only [pointInShape, Bool.and_eq_true, decide_eq_true_eq]
    norm_num
  · simp only [diamondTaxicabInside, decide_eq_false_iff_not, not_le]
    norm_num

/-- C8 (amended): the selection hit-test's diamond interior check is
axis-aligned bounding-box containment with the padding tolerance: the
point is classified inside exactly when `|x−cx| ≤ w/2 + padding` and
`|y−cy| ≤ h/2 + padding`.  (The taxicab-normalized test the spec
describes is used by the eraser, not the selection tool.) -/
theorem pointInShape_diamond_box (x y cx cy w h p : ℚ) (sw : Option ℚ)
    (sc : Option String) (cr : Option ℚ) :
    pointInShape x y (.diamond cx cy w h sw sc cr) p = true ↔
      (|x - cx| ≤ w / 2 + p ∧ |y - cy| ≤ h / 2 + p) := by
  simp only [pointInShape, Bool.and_eq_true, decide_eq_true_eq, abs_sub_le_iff]
  constructor
  · rintro ⟨⟨⟨h1, h2⟩, h3⟩, h4⟩
    refine ⟨⟨by linarith, by linarith⟩, by linarith, by linarith⟩
  · rintro ⟨⟨h1, h2⟩, h3, h4⟩
    refine ⟨⟨⟨by linarith, by linarith⟩, by linarith⟩, by linarith⟩

/-- The clamp of `computeNewBBoxFromHandle` is unconditional: whatever the
handle and the delta, the returned box is at least `6 × 6`. -/
theorem computeNewBBoxFromHandle_min (orig : BBox) (handle : HandleName)
    (dx dy : ℚ) :
    6 ≤ (computeNewBBoxFromHandle orig handle dx dy).w ∧
      6 ≤ (computeNewBBoxFromHandle orig handle dx dy).h := by
  unfold computeNewBBoxFromHandle
  cases handle <;> simp only [] <;> constructor <;> split_ifs <;> simp_all

/-- The shape variants whose resize math is derived from the clamped box. -/
def isBoxVariant : Shape → Bool
  | .rect _ _ _ _ _ _ => true
  | .circle _ _ _ _ _ => true
  | .diamond _ _ _ _ _ _ _ => true
  | _ => false

/-- C3 (amended): for the `rect`, `circle` and `diamond` variants, every
handle and every pointer delta — including deltas that collapse or invert
the box — the resized shape's bounding box is at least `6 × 6`.  (The
`line`/`arrow` branch moves a single endpoint with no clamp, and a
degenerate `pencil` path can stay degenerate, so the bound does not hold
for every variant; see the counterexample.) -/
theorem applyResize_min_bbox (measure : ℚ → String → ℚ) (orig : Shape)
    (handle : HandleName) (dx dy : ℚ) (h : isBoxVariant orig = true) :
    6 ≤ (bboxOf (applyResize measure orig handle dx dy)).w ∧
      6 ≤ (bboxOf (applyResize measure orig handle dx dy)).h := by
  cases orig with
  | rect x y w hh sw sc =>
    simp only [applyResize, bboxOf]
    exact ⟨le_max_left _ _, le_max_left _ _⟩
  | circle cx cy r sw sc =>
    have key : ∀ q : ℚ, 6 ≤ 2 * |max 3 q| := by
      intro q
      have h1 : (3 : ℚ) ≤ max 3 q := le_max_left _ _
      rw [abs_of_nonneg (by linarith)]
      linarith
    constructor <;> · simp only [applyResize, bboxOf]; exact key _
  | diamond cx cy w hh sw sc cr =>
    simp only [applyResize, bboxOf]
    exact ⟨le_max_left _ _, le_max_left _ _⟩
  | pencil path sw sc => simp [isBoxVariant] at h
  | line x1 y1 x2 y2 sw sc => simp [isBoxVariant] at h
  | arrow x1 y1 x2 y2 sw sc => simp [isBoxVariant] at h
  | text tb => simp [isBoxVariant] at h

/-- Witness for `applyResize_min_bbox`: a fully inverting drag of the
south-east handle of a `10 × 10` rectangle still yields a box of at least
`6 × 6`. -/
theorem applyResize_min_bbox_witness :
    6 ≤ (bboxOf (applyResize (fun _ _ => 0) (.rect 0 0 10 10 none none) .se (-100) (-100))).w ∧
      6 ≤ (bboxOf (applyResize (fun _ _ => 0) (.rect 0 0 10 10 none none) .se (-100) (-100))).h :=
  applyResize_min_bbox (fun _ _ => 0) (.rect 0 0 10 10 none none) .se (-100) (-100) (by decide)

/-- C3 counterexample: resizing the horizontal line `(0,0)–(10,0)` by its
east handle with zero delta returns the same line, whose bounding-box
height is `0 < 6`. -/
theorem applyResize_line_below_min :
    applyResize (fun _ _ => 0) (.line 0 0 10 0 none none) .e 0 0 =
        .line 0 0 10 0 none none ∧
      (bboxOf (applyResize (fun _ _ => 0) (.line 0 0 10 0 none none) .e 0 0)).h < 6 := by
  have hstep : applyResize (fun _ _ => (0 : ℚ)) (.line 0 0 10 0 none none) .e 0 0 =
      .line 0 0 10 0 none none := by
    simp only [applyResize]
    rw [if_neg (by decide), if_pos (by decide)]
    norm_num
  refine ⟨hstep, ?_⟩
  rw [hstep]
  simp only [bboxOf]
  norm_num

end AnyDraw
